import Mathlib

/-!
Verification of the citation-generator core (`src/app.py`).

The file shallowly embeds the pure logic of the program: the URL
classifier, the Auditor-General report extractor's URL parsing (year,
chapter/section, PDF detection), the news-release ministry formatting,
the e-Laws title/citation logic, and the markdown-subset tokenizer used
by the DOCX renderer.  Network fetches and HTML/PDF inspection are
side effects; their observable results (page titles, heading texts,
anchor lookups) are passed in as explicit arguments, and everything the
program computes from them is embedded faithfully, including the
leftmost-match, greedy/lazy semantics of the regular expressions used.
-/

/-! ## Generic character/list utilities with Python string semantics -/

/-- Boolean test: `pre` is a prefix of `l` (Python `str.startswith`). -/
def listStartsWith : List Char → List Char → Bool
  | _, [] => true
  | [], _ :: _ => false
  | a :: l, b :: p => a == b && listStartsWith l p

/-- Boolean test: `pat` occurs as a contiguous substring of `l` (Python `in`). -/
def listContains : List Char → List Char → Bool
  | [], pat => pat.isEmpty
  | a :: t, pat => listStartsWith (a :: t) pat || listContains t pat

/-- Python `pat in s` substring containment. -/
def strContains (s pat : String) : Bool :=
  listContains s.toList pat.toList

/-- Boolean test: `suf` is a suffix of `l` (Python `str.endswith`). -/
def listEndsWith (l suf : List Char) : Bool :=
  listStartsWith l.reverse suf.reverse

/-- The ASCII whitespace characters recognised by Python `str.strip`,
`str.split()` and the regex class `\s`. -/
def pySpace (c : Char) : Bool :=
  c == ' ' || c == '\t' || c == '\n' || c == '\r' || c == '\x0b' || c == '\x0c'

/-- Strip leading and trailing whitespace from a character list. -/
def stripList (cs : List Char) : List Char :=
  ((cs.dropWhile pySpace).reverse.dropWhile pySpace).reverse

/-- Python `str.strip()`. -/
def pyStrip (s : String) : String :=
  String.mk (stripList s.toList)

/-- ASCII lowercasing of one character (Python `str.lower` on ASCII input). -/
def pyLower (c : Char) : Char :=
  if 'A' ≤ c ∧ c ≤ 'Z' then Char.ofNat (c.toNat + 32) else c

/-- The numeric value of a decimal digit string (Python `int`). -/
def digitsToNat (g : List Char) : Nat :=
  g.foldl (fun a c => 10 * a + (c.toNat - 48)) 0

/-- Python `str.split()` with no separator: whitespace-delimited words,
no empty entries.  `acc` holds the reversed characters of the word in
progress. -/
def pyWordsAux (acc : List Char) : List Char → List (List Char)
  | [] => if acc.isEmpty then [] else [acc.reverse]
  | c :: r =>
    if pySpace c then
      if acc.isEmpty then pyWordsAux [] r else acc.reverse :: pyWordsAux [] r
    else pyWordsAux (c :: acc) r

/-- Python `' '.join(s.split())`: collapse internal whitespace runs. -/
def joinWords (s : String) : String :=
  String.intercalate " " ((pyWordsAux [] s.toList).map String.mk)

/-- `re.search`-style scan: try the position matcher `m` at every
position of the list, left to right, and return the first success. -/
def scanFirst {α : Type} (m : List Char → Option α) : List Char → Option α
  | [] => none
  | c :: r =>
    match m (c :: r) with
    | some x => some x
    | none => scanFirst m r

/-- String membership used by the ministry dedup. -/
def membStr (x : String) : List String → Bool
  | [] => false
  | y :: ys => if x = y then true else membStr x ys

/-- First-occurrence-wins deduplication (Python `dict.fromkeys`).
`seen` holds the keys already emitted. -/
def dedupAux (seen : List String) : List String → List String
  | [] => []
  | x :: xs => if membStr x seen then dedupAux seen xs else x :: dedupAux (x :: seen) xs

/-- Concatenation of a list of character lists. -/
def listFlat : List (List Char) → List Char
  | [] => []
  | l :: ls => l ++ listFlat ls

/-! ## Source embedding: URL classifier (`detect_citation_type`) -/

/-- `detect_citation_type` from `src/app.py`: first-match-wins,
case-sensitive substring rules.  Returns `some "ag"`, `some "news"`,
`some "elaws"` or `none` exactly as the Python function returns
`'ag'`, `'news'`, `'elaws'` or `None`. -/
def detect_citation_type (url : String) : Option String :=
  if strContains url "auditor.on.ca" then some "ag"
  else if strContains url "news.ontario.ca" then some "news"
  else if strContains url "ontario.ca/laws/statute" || strContains url "ontario.ca/laws/regulation" then some "elaws"
  else none

/-! ## Source embedding: AG report URL parsing -/

/-- `is_pdf_url` from `src/app.py`: `url.lower().endswith('.pdf')`. -/
def is_pdf_url (url : String) : Bool :=
  listEndsWith (url.toList.map pyLower) ['.', 'p', 'd', 'f']

/-- One alternation step of `(?:en|ar|fr)` at the head of the list:
if the list starts with one of the three language prefixes, return the
remainder after the prefix. -/
def langAt (cs : List Char) : Option (List Char) :=
  match cs with
  | a :: b :: r =>
    if (a = 'e' ∧ b = 'n') ∨ (a = 'a' ∧ b = 'r') ∨ (a = 'f' ∧ b = 'r') then some r else none
  | _ => none

/-- Attempt of the pattern `(?:en|ar|fr)(\d{2,4})` anchored at the head
of the list: language prefix followed by a greedy group of 2 to 4
digits.  Returns the captured digit group. -/
def yearGroupAt (cs : List Char) : Option (List Char) :=
  match langAt cs with
  | none => none
  | some r =>
    let g := (r.takeWhile Char.isDigit).take 4
    if 2 ≤ g.length then some g else none

/-- Attempt of the pattern `19\d{2}|20\d{2}` anchored at the head of
the list. -/
def fallGroupAt (cs : List Char) : Option (List Char) :=
  match cs with
  | a :: b :: c :: d :: _ =>
    if ((a = '1' ∧ b = '9') ∨ (a = '2' ∧ b = '0')) ∧ (c.isDigit ∧ d.isDigit)
    then some [a, b, c, d] else none
  | _ => none

/-- `extract_year_from_url` from `src/app.py`: leftmost match of
`(?:en|ar|fr)(\d{2,4})`, expanding a two-digit group with `19`/`20`;
else leftmost match of `19\d{2}|20\d{2}`; else `None`. -/
def extract_year_from_url (url : String) : Option String :=
  match scanFirst yearGroupAt url.toList with
  | some year =>
    if year.length = 2 then
      if 50 ≤ digitsToNat year then some ("19" ++ String.mk year)
      else some ("20" ++ String.mk year)
    else some (String.mk year)
  | none =>
    match scanFirst fallGroupAt url.toList with
    | some y => some (String.mk y)
    | none => none

/-- Attempt of the pattern `v\d+_(\d)(\d{2})` anchored at the head of
the list: `v`, a nonempty greedy digit run, `_`, then three digits.
Returns the two captured groups as three characters. -/
def patAAt (cs : List Char) : Option (Char × Char × Char) :=
  match cs with
  | [] => none
  | v :: r =>
    if v = 'v' then
      let ds := r.takeWhile Char.isDigit
      if ds.isEmpty then none
      else
        match r.dropWhile Char.isDigit with
        | u :: c :: s1 :: s2 :: _ =>
          if u = '_' ∧ c.isDigit ∧ s1.isDigit ∧ s2.isDigit then some (c, s1, s2) else none
        | _ => none
    else none

/-- Attempt of the anchored pattern `^(\d)(\d{2})en\d{2}`. -/
def patBAt (cs : List Char) : Option (Char × Char × Char) :=
  match cs with
  | c :: s1 :: s2 :: e :: n :: d1 :: d2 :: _ =>
    if c.isDigit ∧ s1.isDigit ∧ s2.isDigit ∧ e = 'e' ∧ n = 'n' ∧ d1.isDigit ∧ d2.isDigit
    then some (c, s1, s2) else none
  | _ => none

/-- `extract_chapter_section_from_filename` from `src/app.py`. -/
def extract_chapter_section_from_filename (filename : String) : Option String × Option String :=
  match scanFirst patAAt filename.toList with
  | some (c, s1, s2) =>
    if ¬ (s1 = '0' ∧ s2 = '0') then (some (String.mk [c]), some (String.mk [c, '.', s1, s2]))
    else (some (String.mk [c]), none)
  | none =>
    match patBAt filename.toList with
    | some (c, s1, s2) =>
      if ¬ (s1 = '0' ∧ s2 = '0') then (some (String.mk [c]), some (String.mk [c, '.', s1, s2]))
      else (some (String.mk [c]), none)
    | none => (none, none)

/-- `fetch_ag_citation` from `src/app.py`.  The two fetch-and-inspect
helpers `extract_title_from_pdf_metadata` and `extract_title_from_html`
perform network and document I/O; their results (already
boilerplate-stripped in the PDF case, `None` on any internal failure)
are passed in as `pdfTitle` and `htmlTitle`.  Returns the
`(citation, error)` pair of the Python function. -/
def fetch_ag_citation (url : String) (pdfTitle htmlTitle : Option String) :
    Option String × Option String :=
  match extract_year_from_url url with
  | none => (none, some "Could not extract year")
  | some year =>
    let org_name := "Office of the Auditor General of Ontario"
    let year_report := year ++ " Annual Report"
    if is_pdf_url url then
      match pdfTitle with
      | none => (none, some "Could not extract title from PDF")
      | some t0 =>
        if t0 = "" then (none, some "Could not extract title from PDF")
        else
          let filename := (url.splitOn "/").getLastD ""
          let title := joinWords t0
          match extract_chapter_section_from_filename filename with
          | (some chapter, some sec) =>
            (some (org_name ++ ", \"[" ++ title ++ "](" ++ url ++ ")\", Chapter " ++ chapter
              ++ ", Section " ++ sec ++ ", *" ++ year_report ++ "*."), none)
          | (some chapter, none) =>
            (some (org_name ++ ", \"[" ++ title ++ "](" ++ url ++ ")\", Chapter " ++ chapter
              ++ ", *" ++ year_report ++ "*."), none)
          | (none, _) =>
            (some (org_name ++ ", \"[" ++ title ++ "](" ++ url ++ ")\", *" ++ year_report
              ++ "*."), none)
    else
      match htmlTitle with
      | none => (none, some "Could not extract title from page")
      | some t0 =>
        if t0 = "" then (none, some "Could not extract title from page")
        else
          let title := joinWords t0
          (some (org_name ++ ", \"[" ++ title ++ "](" ++ url ++ ")\", *" ++ year_report
            ++ "*."), none)

/-! ## Source embedding: news-release ministry formatting -/

/-- `format_ministries` from `src/app.py`.  A partner-ministry record is
modelled as `Option String`: `none` when the record lacks a `'name'`
key, `some n` otherwise. -/
def format_ministries (main : String) (partners : List (Option String)) : String :=
  let names := partners.filterMap (fun m =>
    match m with
    | some n => if n ≠ main then some n else none
    | none => none)
  let ministries := dedupAux [] (main :: names)
  match ministries with
  | [] => ""
  | [a] => a
  | [a, b] => a ++ " and " ++ b
  | a :: b :: c :: rest =>
    String.intercalate ", " ((a :: b :: c :: rest).dropLast) ++ ", and "
      ++ ((a :: b :: c :: rest).getLastD "")

/-! ## Source embedding: e-Laws extractor -/

/-- The observable content of a fetched e-Laws page, as consumed by
`fetch_elaws_citation`: the page title string (`""` when the page has no
title element), whether an element with a given `id` exists, and the
heading texts found while walking that element's ancestors outward
(one entry per ancestor that contains an `h2`/`h3`/`strong`
descendant, in walking order). -/
structure ElawsPage where
  page_title : String
  anchor_found : String → Bool
  walk_headings : String → List String

/-- The result record of `fetch_elaws_citation`.  The Python function
returns a dict; keys absent from a given return are modelled as
`none`. -/
structure ElawsData where
  error : Option String
  full_title : Option String
  short_title : Option String
  sec : Option String
  clean_url : Option String
  is_regulation : Bool
  full_citation : Option String
  short_citation : Option String
deriving Repr, DecidableEq

/-- `re.search(r'^([^-]+)', page_title)` followed by `.strip()`, with
fallback to the whole title when the regex does not match (i.e. when
the title starts with `-` — the nonempty-title case is checked by the
caller). -/
def full_title_of (page_title : String) : String :=
  let lead := page_title.toList.takeWhile (fun c => c != '-')
  if lead.isEmpty then page_title else String.mk (stripList lead)

/-- Leading match of `^(O\.\s*Reg\.\s*\d+/\d+)` (group 1). -/
def oRegMatch (cs : List Char) : Option (List Char) :=
  match cs with
  | a :: b :: r1 =>
    if a = 'O' ∧ b = '.' then
      let w1 := r1.takeWhile pySpace
      match r1.dropWhile pySpace with
      | c1 :: c2 :: c3 :: c4 :: r2 =>
        if c1 = 'R' ∧ c2 = 'e' ∧ c3 = 'g' ∧ c4 = '.' then
          let w2 := r2.takeWhile pySpace
          let r3 := r2.dropWhile pySpace
          let d1 := r3.takeWhile Char.isDigit
          if d1.isEmpty then none
          else
            match r3.dropWhile Char.isDigit with
            | s :: r4 =>
              if s = '/' then
                let d2 := r4.takeWhile Char.isDigit
                if d2.isEmpty then none
                else some (a :: b :: (w1 ++ (c1 :: c2 :: c3 :: c4 :: (w2 ++ (d1 ++ s :: d2)))))
              else none
            | [] => none
        else none
      | _ => none
    else none
  | _ => none

/-- Leading match of `^([^,]+, \d{4})` (group 1). -/
def statuteShortMatch (cs : List Char) : Option (List Char) :=
  let t := cs.takeWhile (fun c => c != ',')
  if t.isEmpty then none
  else
    match cs.dropWhile (fun c => c != ',') with
    | a :: b :: d1 :: d2 :: d3 :: d4 :: _ =>
      if a = ',' ∧ b = ' ' ∧ d1.isDigit ∧ d2.isDigit ∧ d3.isDigit ∧ d4.isDigit
      then some (t ++ [a, b, d1, d2, d3, d4]) else none
    | _ => none

/-- The title-parsing block of `fetch_elaws_citation`: given the page
title and the regulation flag, compute `(full_title, short_title)`. -/
def elaws_titles (page_title : String) (is_regulation : Bool) : Option String × String :=
  if page_title ≠ "" then
    let ft := full_title_of page_title
    if is_regulation then
      (none, match oRegMatch ft.toList with | some m => String.mk m | none => ft)
    else
      (some ft, match statuteShortMatch ft.toList with | some m => String.mk m | none => ft)
  else (some "Legislation", "Legislation")

/-- `url.split('?')[0].split('#')[0]`. -/
def clean_url_of (url : String) : String :=
  String.mk ((url.toList.takeWhile (fun c => c != '?')).takeWhile (fun c => c != '#'))

/-- `url.split('#')[1].split('?')[0]` (callers guard on `'#' in url`). -/
def anchor_of (url : String) : String :=
  String.mk ((((url.toList.dropWhile (fun c => c != '#')).drop 1).takeWhile
    (fun c => c != '#')).takeWhile (fun c => c != '?'))

/-- The ancestor-walk loop of `fetch_elaws_citation`: the first heading
text whose stripped form starts with a digit run yields that run. -/
def section_from_walk : List String → Option String
  | [] => none
  | t :: ts =>
    let st := stripList t.toList
    let ds := st.takeWhile Char.isDigit
    if ds.isEmpty then section_from_walk ts else some (String.mk ds)

/-- `"[{title}]({clean_url})" + (f", s. {section}." if section else ".")`. -/
def citationStr (title clean : String) (sec : Option String) : String :=
  "[" ++ title ++ "](" ++ clean ++ ")" ++
    (match sec with
     | some s => ", s. " ++ s ++ "."
     | none => ".")

/-- `fetch_elaws_citation` from `src/app.py`.  The HTTP fetch and HTML
parse are modelled by the `fetch` argument: `Except.error e` is the
exception path (any exception raised inside the `try` block, carrying
its message), `Except.ok page` the successful fetch. -/
def fetch_elaws_citation (url : String) (fetch : Except String ElawsPage) : ElawsData :=
  match fetch with
  | Except.error e =>
    { error := some e, full_title := none, short_title := none, sec := none,
      clean_url := none, is_regulation := strContains url "regulation",
      full_citation := none, short_citation := none }
  | Except.ok page =>
    let is_regulation := strContains url "regulation"
    let ts := elaws_titles page.page_title is_regulation
    let full_title := ts.1
    let short_title := ts.2
    let sec :=
      if strContains url "#" then
        let anchor := anchor_of url
        if anchor ≠ "" ∧ anchor.startsWith "BK" then
          if page.anchor_found anchor then section_from_walk (page.walk_headings anchor)
          else none
        else none
      else none
    let clean := clean_url_of url
    { error := none, full_title := full_title, short_title := some short_title,
      sec := sec, clean_url := some clean, is_regulation := is_regulation,
      full_citation :=
        (match full_title with
         | some ft => if ft = "" then none else some (citationStr ft clean sec)
         | none => none),
      short_citation := some (citationStr short_title clean sec) }

/-! ## Source embedding: DOCX markup tokenizer and renderer -/

/-- Lazy scan for the closing delimiter `d`: consumes the shortest run
of non-newline characters up to and including the first `d` (the `.`
of `.*?` does not match a newline).  Returns the consumed characters
and the remainder. -/
def scanClose (d : Char) : List Char → Option (List Char × List Char)
  | [] => none
  | c :: cs =>
    if c = d then some ([c], cs)
    else if c = '\n' then none
    else
      match scanClose d cs with
      | some (t, r) => some (c :: t, r)
      | none => none

/-- Lazy scan for `](`: consumes the shortest non-newline run up to and
including the first `]` that is immediately followed by `(`. -/
def scanBrackParen : List Char → Option (List Char × List Char)
  | [] => none
  | [_] => none
  | a :: b :: cs =>
    if a = ']' ∧ b = '(' then some ([a, b], cs)
    else if a = '\n' then none
    else
      match scanBrackParen (b :: cs) with
      | some (t, r) => some (a :: t, r)
      | none => none

/-- One attempt of the tokenizer pattern
`(\[.*?\]\(.*?\)|\*.*?\*|_.*?_)` anchored at the head of the list,
alternatives tried left to right. -/
def matchToken (cs : List Char) : Option (List Char × List Char) :=
  match cs with
  | [] => none
  | c :: rest =>
    if c = '[' then
      match scanBrackParen rest with
      | some (t1, r1) =>
        match scanClose ')' r1 with
        | some (t2, r2) => some (c :: (t1 ++ t2), r2)
        | none => none
      | none => none
    else if c = '*' then
      match scanClose '*' rest with
      | some (t, r) => some (c :: t, r)
      | none => none
    else if c = '_' then
      match scanClose '_' rest with
      | some (t, r) => some (c :: t, r)
      | none => none
    else none

/-- `re.split` with the tokenizer pattern as a single capturing group:
the output alternates non-matching gaps and matched tokens, in order.
`acc` holds the reversed characters of the current gap; the fuel is an
upper bound on the number of scan steps, and the fuel-exhausted case
still returns the unconsumed input so that concatenation of the parts
is the input unconditionally. -/
def tokenizeFuel : Nat → List Char → List Char → List (List Char)
  | 0, acc, cs => [acc.reverse ++ cs]
  | _ + 1, acc, [] => [acc.reverse]
  | n + 1, acc, c :: cs =>
    match matchToken (c :: cs) with
    | some (t, r) => acc.reverse :: t :: tokenizeFuel n [] r
    | none => tokenizeFuel n (c :: acc) cs

/-- `pattern.split(citation_md)` from `generate_docx`. -/
def splitParts (s : String) : List (List Char) :=
  tokenizeFuel (s.toList.length + 1) [] s.toList

/-- One styled run of the output document. -/
inductive DocxRun
  | hyper (text url : String)
  | italic (text : String)
  | plain (text : String)
deriving Repr, DecidableEq

/-- One attempt of `\[(.*?)\]` anchored at the head: returns group 1. -/
def bracketGroupAt (cs : List Char) : Option (List Char) :=
  match cs with
  | [] => none
  | c :: rest =>
    if c = '[' then
      match scanClose ']' rest with
      | some (t, _) => some t.dropLast
      | none => none
    else none

/-- One attempt of `\((.*?)\)` anchored at the head: returns group 1. -/
def parenGroupAt (cs : List Char) : Option (List Char) :=
  match cs with
  | [] => none
  | c :: rest =>
    if c = '(' then
      match scanClose ')' rest with
      | some (t, _) => some t.dropLast
      | none => none
    else none

/-- The per-part body of the loop in `generate_docx`.  `none` models an
uncaught exception: the hyperlink branch indexes `[0]` into
`re.findall` results, which raises `IndexError` when the findall list
is empty. -/
def renderPart (part : String) : Option DocxRun :=
  let cs := part.toList
  if cs.headD ' ' == '[' && listContains cs [']', '('] && cs.getLastD ' ' == ')' then
    match scanFirst bracketGroupAt cs, scanFirst parenGroupAt cs with
    | some t, some u => some (DocxRun.hyper (String.mk t) (String.mk u))
    | _, _ => none
  else if (cs.headD ' ' == '*' && cs.getLastD ' ' == '*')
      || (cs.headD ' ' == '_' && cs.getLastD ' ' == '_') then
    some (DocxRun.italic (String.mk ((cs.drop 1).dropLast)))
  else
    some (DocxRun.plain part)

/-- The part loop of `generate_docx` over one citation: empty parts are
skipped (`if not part: continue`), and a failing part aborts. -/
def renderRuns : List String → Option (List DocxRun)
  | [] => some []
  | p :: ps =>
    if p = "" then renderRuns ps
    else
      match renderPart p, renderRuns ps with
      | some r, some rs => some (r :: rs)
      | _, _ => none

/-- One paragraph of `generate_docx`: the runs of one citation followed
by the trailing line-break run. -/
def renderParagraph (s : String) : Option (List DocxRun) :=
  (renderRuns ((splitParts s).map String.mk)).map (fun rs => rs ++ [DocxRun.plain "\n"])

/-- `generate_docx` from `src/app.py`, observed as the list of
paragraphs of styled runs (the remaining work of the Python function
serialises these runs into the binary buffer).  `none` models an
uncaught exception. -/
def generate_docx : List String → Option (List (List DocxRun))
  | [] => some []
  | c :: cs =>
    match renderParagraph c, generate_docx cs with
    | some p, some ps => some (p :: ps)
    | _, _ => none

/-! ## Definitions taken from the claims' wording -/

/-- One of the three language prefixes `en`, `ar`, `fr`. -/
def IsLang (p : List Char) : Prop :=
  p = ['e', 'n'] ∨ p = ['a', 'r'] ∨ p = ['f', 'r']

/-- Declarative anchored match of the year pattern: the list is a
language prefix, then the digit group `g` of 2 to 4 digits, maximal up
to length 4 (if shorter than 4, no further digit follows). -/
def PrimAt0 (cs g : List Char) : Prop :=
  ∃ p rest, IsLang p ∧ cs = p ++ (g ++ rest) ∧ (∀ c ∈ g, c.isDigit = true) ∧
    2 ≤ g.length ∧ g.length ≤ 4 ∧
    (g.length = 4 ∨ ∀ c, rest.head? = some c → c.isDigit = false)

/-- Some anchored match of the year pattern exists: a language prefix
followed by at least two digits. -/
def PrimPoss0 (cs : List Char) : Prop :=
  ∃ p d1 d2 rest, IsLang p ∧ cs = p ++ (d1 :: d2 :: rest) ∧
    d1.isDigit = true ∧ d2.isDigit = true

/-- Declarative anchored match of the bare-year fallback pattern:
a four-digit group starting `19` or `20`. -/
def FallAt0 (cs g : List Char) : Prop :=
  ∃ c d rest, c.isDigit = true ∧ d.isDigit = true ∧
    (g = ['1', '9', c, d] ∨ g = ['2', '0', c, d]) ∧ cs = g ++ rest

/-- The claim's two-digit year expansion: values ≥ 50 get prefix `19`,
smaller values get prefix `20`; longer groups are returned unchanged. -/
def expandYearSpec (g : List Char) : String :=
  if g.length = 2 then
    if 50 ≤ digitsToNat g then "19" ++ String.mk g else "20" ++ String.mk g
  else String.mk g

/-- Declarative anchored match of filename pattern (a): `v`, a
nonempty digit run, `_`, chapter digit `c`, section digits `s1 s2`. -/
def PatA0 (cs : List Char) (c s1 s2 : Char) : Prop :=
  ∃ ds rest, cs = 'v' :: (ds ++ '_' :: c :: s1 :: s2 :: rest) ∧ ds ≠ [] ∧
    (∀ x ∈ ds, x.isDigit = true) ∧ c.isDigit = true ∧ s1.isDigit = true ∧ s2.isDigit = true

/-- Some anchored match of filename pattern (a) exists. -/
def PatAPoss0 (cs : List Char) : Prop :=
  ∃ c s1 s2, PatA0 cs c s1 s2

/-- Declarative match of filename pattern (b), anchored at the start:
chapter digit, two section digits, `en`, two digits. -/
def PatB0 (cs : List Char) (c s1 s2 : Char) : Prop :=
  ∃ d1 d2 rest, cs = c :: s1 :: s2 :: 'e' :: 'n' :: d1 :: d2 :: rest ∧
    c.isDigit = true ∧ s1.isDigit = true ∧ s2.isDigit = true ∧
    d1.isDigit = true ∧ d2.isDigit = true

/-- The claim's chapter/section rule: section code `00` reports the
chapter only, any other code reports chapter and `C.SS`. -/
def chapterResultSpec (c s1 s2 : Char) : Option String × Option String :=
  if s1 = '0' ∧ s2 = '0' then (some (String.mk [c]), none)
  else (some (String.mk [c]), some (String.mk [c, '.', s1, s2]))

/-- Modelled from the claim's wording: the portion of the page title
before the first `-` character. -/
def beforeFirstDash (t : String) : String :=
  String.mk (t.toList.takeWhile (fun c => c != '-'))

/-- Declarative leading match of `O\.\s*Reg\.\s*\d+/\d+` against `cs`
with matched text `m`: literal `O.`, optional whitespace, literal
`Reg.`, optional whitespace, digits, `/`, digits (the final digit run
maximal). -/
def ORegDecomp (cs m : List Char) : Prop :=
  ∃ w1 w2 d1 d2 rest,
    cs = 'O' :: '.' :: (w1 ++ ('R' :: 'e' :: 'g' :: '.' :: (w2 ++ (d1 ++ '/' :: (d2 ++ rest))))) ∧
    m = 'O' :: '.' :: (w1 ++ ('R' :: 'e' :: 'g' :: '.' :: (w2 ++ (d1 ++ '/' :: d2)))) ∧
    (∀ x ∈ w1, pySpace x = true) ∧ (∀ x ∈ w2, pySpace x = true) ∧
    d1 ≠ [] ∧ (∀ x ∈ d1, x.isDigit = true) ∧
    d2 ≠ [] ∧ (∀ x ∈ d2, x.isDigit = true) ∧
    (∀ x, rest.head? = some x → x.isDigit = false)

/-- Declarative leading match of `[^,]+, \d{4}` against `cs` with
matched text `m`: the nonempty text before the first comma, then
`, ` and four digits. -/
def StatuteDecomp (cs m : List Char) : Prop :=
  ∃ t d1 d2 d3 d4 rest,
    cs = t ++ (',' :: ' ' :: d1 :: d2 :: d3 :: d4 :: rest) ∧
    m = t ++ [',', ' ', d1, d2, d3, d4] ∧
    t ≠ [] ∧ (∀ x ∈ t, x ≠ ',') ∧
    d1.isDigit = true ∧ d2.isDigit = true ∧ d3.isDigit = true ∧ d4.isDigit = true

/-- The claim's ministry-list construction: start from the main
ministry and append each partner name that is neither the main
ministry nor already present. -/
def ministrySpecGo (main : String) (acc : List String) : List (Option String) → List String
  | [] => acc
  | m :: ms =>
    match m with
    | some n =>
      if n ≠ main ∧ membStr n acc = false then ministrySpecGo main (acc ++ [n]) ms
      else ministrySpecGo main acc ms
    | none => ministrySpecGo main acc ms

/-- The deduplicated ordered ministry list described by the claim. -/
def ministriesSpecList (main : String) (partners : List (Option String)) : List String :=
  ministrySpecGo main [main] partners

/-- The claim's join rule: one item is itself, two items are
`A and B`, three or more are comma-separated with an Oxford comma
before the final `and`. -/
def joinSpecList : List String → String
  | [] => ""
  | [a] => a
  | [a, b] => a ++ " and " ++ b
  | a :: b :: c :: rest =>
    String.intercalate ", " ((a :: b :: c :: rest).dropLast) ++ ", and "
      ++ ((a :: b :: c :: rest).getLastD "")

/-- Modelled from the claim: the URL's path, i.e. the URL with any
query string and fragment removed. -/
def urlPathSpec (url : String) : String :=
  String.mk ((url.toList.takeWhile (fun c => c != '?')).takeWhile (fun c => c != '#'))

/-- Modelled from the amended claim: the entire URL, lowercased, ends
with `.pdf`. -/
def lowerEndsPdfSpec (url : String) : Bool :=
  listEndsWith (url.toList.map pyLower) ['.', 'p', 'd', 'f']

example : extract_year_from_url "ar18" = some "2018" := by rfl
example : extract_year_from_url "en2024" = some "2024" := by rfl
example : extract_year_from_url "fr87" = some "1987" := by rfl
example : extract_chapter_section_from_filename "v1_306en18.pdf" = (some "3", some "3.06") := by rfl
example : splitParts "a [b](c) *d*" = [['a', ' '], ['[', 'b', ']', '(', 'c', ')'], [' '], ['*', 'd', '*'], []] := by rfl

/-! ## Helper lemmas: takeWhile/dropWhile splits and the scan -/

theorem dropWhile_head_false {p : Char → Bool} :
    ∀ {l : List Char} {c : Char} {r : List Char}, l.dropWhile p = c :: r → p c = false := by
  intro l
  induction l with
  | nil => intro c r h; simp at h
  | cons a t ih =>
    intro c r h
    by_cases hp : p a
    · rw [List.dropWhile_cons_of_pos hp] at h
      exact ih h
    · rw [List.dropWhile_cons_of_neg hp] at h
      injection h with h1 h2
      subst h1
      simpa using hp

theorem takeWhile_split {p : Char → Bool} (w rest : List Char)
    (hw : ∀ c ∈ w, p c = true) (hr : ∀ c, rest.head? = some c → p c = false) :
    (w ++ rest).takeWhile p = w ∧ (w ++ rest).dropWhile p = rest := by
  have hrest : rest.takeWhile p = [] ∧ rest.dropWhile p = rest := by
    cases rest with
    | nil => exact ⟨rfl, rfl⟩
    | cons c t =>
      have hc : p c = false := hr c rfl
      exact ⟨List.takeWhile_cons_of_neg (by simp [hc]), List.dropWhile_cons_of_neg (by simp [hc])⟩
  constructor
  · rw [List.takeWhile_append_of_pos (by intro a ha; exact hw a ha), hrest.1, List.append_nil]
  · rw [List.dropWhile_append_of_pos (by intro a ha; exact hw a ha), hrest.2]

theorem scanFirst_eq_some {α : Type} {m : List Char → Option α} (hm : m [] = none) :
    ∀ {cs : List Char} {x : α},
      scanFirst m cs = some x ↔
        ∃ i, m (cs.drop i) = some x ∧ ∀ j, j < i → m (cs.drop j) = none := by
  intro cs
  induction cs with
  | nil =>
    intro x
    constructor
    · intro h; simp [scanFirst] at h
    · rintro ⟨i, hi, -⟩
      rw [List.drop_nil, hm] at hi
      exact absurd hi (by simp)
  | cons c r ih =>
    intro x
    constructor
    · intro h
      rw [scanFirst] at h
      cases hmc : m (c :: r) with
      | some y =>
        rw [hmc] at h
        simp only at h
        refine ⟨0, ?_, ?_⟩
        · rw [List.drop_zero, hmc]; exact h
        · intro j hj; omega
      | none =>
        rw [hmc] at h
        simp only at h
        obtain ⟨i, hi, hlt⟩ := ih.mp h
        refine ⟨i + 1, by simpa using hi, ?_⟩
        intro j hj
        cases j with
        | zero => simpa using hmc
        | succ k => simpa using hlt k (by omega)
    · rintro ⟨i, hi, hlt⟩
      rw [scanFirst]
      cases hmc : m (c :: r) with
      | some y =>
        simp only
        cases i with
        | zero => rw [List.drop_zero, hmc] at hi; exact hi
        | succ k =>
          have := hlt 0 (by omega)
          rw [List.drop_zero] at this
          rw [this] at hmc
          exact absurd hmc (by simp)
      | none =>
        simp only
        cases i with
        | zero =>
          rw [List.drop_zero, hmc] at hi
          exact absurd hi (by simp)
        | succ k =>
          refine ih.mpr ⟨k, by simpa using hi, ?_⟩
          intro j hj
          have := hlt (j + 1) (by omega)
          simpa using this

theorem scanFirst_eq_none {α : Type} {m : List Char → Option α} (hm : m [] = none) :
    ∀ {cs : List Char},
      scanFirst m cs = none ↔ ∀ i, m (cs.drop i) = none := by
  intro cs
  induction cs with
  | nil =>
    constructor
    · intro _ i; rw [List.drop_nil]; exact hm
    · intro _; simp [scanFirst]
  | cons c r ih =>
    constructor
    · intro h i
      rw [scanFirst] at h
      cases hmc : m (c :: r) with
      | some y => rw [hmc] at h; exact absurd h (by simp)
      | none =>
        rw [hmc] at h
        simp only at h
        cases i with
        | zero => rw [List.drop_zero]; exact hmc
        | succ k => simpa using ih.mp h k
    · intro h
      rw [scanFirst]
      have h0 := h 0
      rw [List.drop_zero] at h0
      rw [h0]
      simp only
      exact ih.mpr (fun k => by simpa using h (k + 1))

/-! ## Helper lemmas: the year regex -/

theorem isLang_langAt {p : List Char} (h : IsLang p) (r : List Char) :
    langAt (p ++ r) = some r := by
  rcases h with h | h | h <;> subst h <;> simp [langAt]

theorem langAt_inv {cs r : List Char} (h : langAt cs = some r) :
    ∃ p, IsLang p ∧ cs = p ++ r := by
  cases cs with
  | nil => simp [langAt] at h
  | cons a t =>
    cases t with
    | nil => simp [langAt] at h
    | cons b u =>
      rw [langAt] at h
      split at h
      · next hcond =>
        injection h with h
        subst h
        rcases hcond with ⟨ha, hb⟩ | ⟨ha, hb⟩ | ⟨ha, hb⟩ <;> subst ha <;> subst hb
        · exact ⟨['e', 'n'], Or.inl rfl, rfl⟩
        · exact ⟨['a', 'r'], Or.inr (Or.inl rfl), rfl⟩
        · exact ⟨['f', 'r'], Or.inr (Or.inr rfl), rfl⟩
      · exact absurd h (by simp)

theorem yearGroupAt_some_iff {cs g : List Char} :
    yearGroupAt cs = some g ↔ PrimAt0 cs g := by
  constructor
  · intro h
    unfold yearGroupAt at h
    cases hl : langAt cs with
    | none => rw [hl] at h; exact absurd h (by simp)
    | some r =>
      rw [hl] at h
      simp only at h
      split at h
      · next hlen =>
        injection h with h
        obtain ⟨p, hp, hcs⟩ := langAt_inv hl
        refine ⟨p, (r.takeWhile Char.isDigit).drop 4 ++ r.dropWhile Char.isDigit, hp, ?_, ?_, ?_, ?_, ?_⟩
        · rw [hcs, ← h]
          congr 1
          rw [← List.append_assoc, List.take_append_drop, List.takeWhile_append_dropWhile]
        · intro c hc
          rw [← h] at hc
          exact List.mem_takeWhile_imp (List.take_subset 4 _ hc)
        · rw [← h]; exact hlen
        · rw [← h, List.length_take]; omega
        · rcases Nat.lt_or_ge (r.takeWhile Char.isDigit).length 4 with hlt | hge
          · right
            have hd : (r.takeWhile Char.isDigit).drop 4 = [] :=
              List.drop_eq_nil_of_le (by omega)
            intro c hc
            rw [hd, List.nil_append] at hc
            cases hdw : r.dropWhile Char.isDigit with
            | nil => rw [hdw] at hc; simp at hc
            | cons d u =>
              rw [hdw] at hc
              simp only [List.head?_cons, Option.some.injEq] at hc
              subst hc
              exact dropWhile_head_false hdw
          · left
            rw [← h, List.length_take]
            omega
      · exact absurd h (by simp)
  · rintro ⟨p, rest, hp, hcs, hdig, h2, h4, hmax⟩
    have htw : (g ++ rest).takeWhile Char.isDigit = g ++ rest.takeWhile Char.isDigit :=
      List.takeWhile_append_of_pos (by intro a ha; exact hdig a ha)
    have hg : ((g ++ rest).takeWhile Char.isDigit).take 4 = g := by
      rcases hmax with h4' | hnd
      · rw [htw, ← h4', List.take_left]
      · have hrtw : rest.takeWhile Char.isDigit = [] := by
          cases rest with
          | nil => rfl
          | cons c t => exact List.takeWhile_cons_of_neg (by simp [hnd c rfl])
        rw [htw, hrtw, List.append_nil, List.take_of_length_le h4]
    simp only [yearGroupAt, hcs, isLang_langAt hp]
    rw [hg]
    simp [h2]

theorem primPoss_iff {cs : List Char} :
    PrimPoss0 cs ↔ ∃ g, yearGroupAt cs = some g := by
  constructor
  · rintro ⟨p, d1, d2, rest, hp, hcs, h1, h2⟩
    refine ⟨((d1 :: d2 :: rest).takeWhile Char.isDigit).take 4, ?_⟩
    simp only [yearGroupAt, hcs, isLang_langAt hp]
    rw [List.takeWhile_cons_of_pos (by simp [h1]), List.takeWhile_cons_of_pos (by simp [h2])]
    have : 2 ≤ ((d1 :: d2 :: (rest.takeWhile Char.isDigit)).take 4).length := by
      rw [List.length_take]
      simp only [List.length_cons]
      omega
    simp only [List.take_succ_cons] at this ⊢
    simp [this]
  · rintro ⟨g, hg⟩
    obtain ⟨p, rest, hp, hcs, hdig, h2, -, -⟩ := yearGroupAt_some_iff.mp hg
    cases g with
    | nil => simp at h2
    | cons d1 g1 =>
      cases g1 with
      | nil => simp at h2
      | cons d2 g2 =>
        exact ⟨p, d1, d2, g2 ++ rest, hp, by simpa using hcs,
          hdig d1 (by simp), hdig d2 (by simp)⟩

theorem yearGroupAt_none_iff {cs : List Char} :
    yearGroupAt cs = none ↔ ¬ PrimPoss0 cs := by
  rw [primPoss_iff]
  cases h : yearGroupAt cs <;> simp [h]

theorem fallGroupAt_some_iff {cs g : List Char} :
    fallGroupAt cs = some g ↔ FallAt0 cs g := by
  constructor
  · intro h
    cases cs with
    | nil => simp [fallGroupAt] at h
    | cons a t =>
      cases t with
      | nil => simp [fallGroupAt] at h
      | cons b u =>
        cases u with
        | nil => simp [fallGroupAt] at h
        | cons c v =>
          cases v with
          | nil => simp [fallGroupAt] at h
          | cons d w =>
            rw [fallGroupAt] at h
            split at h
            · next hcond =>
              injection h with h
              subst h
              obtain ⟨h19, hc, hd⟩ := hcond
              rcases h19 with ⟨ha, hb⟩ | ⟨ha, hb⟩ <;> subst ha <;> subst hb
              · exact ⟨c, d, w, by simpa using hc, by simpa using hd, Or.inl rfl, rfl⟩
              · exact ⟨c, d, w, by simpa using hc, by simpa using hd, Or.inr rfl, rfl⟩
            · exact absurd h (by simp)
  · rintro ⟨c, d, rest, hc, hd, hg, hcs⟩
    rcases hg with hg | hg <;> subst hg <;> subst hcs <;>
      simp [fallGroupAt, hc, hd]

theorem fallPoss_iff {cs : List Char} :
    (∃ g, FallAt0 cs g) ↔ ∃ g, fallGroupAt cs = some g := by
  constructor
  · rintro ⟨g, hg⟩; exact ⟨g, fallGroupAt_some_iff.mpr hg⟩
  · rintro ⟨g, hg⟩; exact ⟨g, fallGroupAt_some_iff.mp hg⟩

theorem yearGroupAt_nil : yearGroupAt [] = none := rfl

theorem fallGroupAt_nil : fallGroupAt [] = none := rfl

theorem extract_expand_eq (g : List Char) :
    (if g.length = 2 then
      if 50 ≤ digitsToNat g then some ("19" ++ String.mk g) else some ("20" ++ String.mk g)
     else some (String.mk g)) = some (expandYearSpec g) := by
  unfold expandYearSpec
  by_cases h2 : g.length = 2 <;> by_cases h50 : 50 ≤ digitsToNat g <;> simp [h2, h50]

/-- C1: the AG year derivation returns the digit group of the leftmost
occurrence of a 2-4 digit number immediately preceded by `en`, `ar` or
`fr`, expanding a two-digit value `v` to `19`+v when v ≥ 50 and to
`20`+v otherwise; if no such token exists it returns the leftmost bare
four-digit year in the range 1900-2099; if both searches fail it
returns no year and the AG extractor fails with the missing-year
error.  In particular `en2024` yields `"2024"`, `ar18` yields
`"2018"`, `fr87` yields `"1987"`, and a URL with no en/ar/fr-prefixed
digits but containing `1995` yields `"1995"`. -/
theorem extract_year_claim :
    (∀ (url : String) (i : Nat) (g : List Char),
      PrimAt0 (url.toList.drop i) g →
      (∀ j, j < i → ¬ PrimPoss0 (url.toList.drop j)) →
      extract_year_from_url url = some (expandYearSpec g))
    ∧ (∀ (url : String) (i : Nat) (g : List Char),
      (∀ k, ¬ PrimPoss0 (url.toList.drop k)) →
      FallAt0 (url.toList.drop i) g →
      (∀ j, j < i → ¬ ∃ g', FallAt0 (url.toList.drop j) g') →
      extract_year_from_url url = some (String.mk g))
    ∧ (∀ url : String,
      (∀ k, ¬ PrimPoss0 (url.toList.drop k)) →
      (∀ k, ¬ ∃ g, FallAt0 (url.toList.drop k) g) →
      extract_year_from_url url = none)
    ∧ (∀ (url : String) (p h : Option String), extract_year_from_url url = none →
      fetch_ag_citation url p h = (none, some "Could not extract year"))
    ∧ extract_year_from_url "en2024" = some "2024"
    ∧ extract_year_from_url "ar18" = some "2018"
    ∧ extract_year_from_url "fr87" = some "1987"
    ∧ extract_year_from_url "annualreports/1995/report.html" = some "1995"
    ∧ extract_year_from_url "no year here" = none := by
  refine ⟨?_, ?_, ?_, ?_, by rfl, by rfl, by rfl, by rfl, by rfl⟩
  · intro url i g hi hlt
    have hsome : scanFirst yearGroupAt url.toList = some g :=
      (scanFirst_eq_some yearGroupAt_nil).mpr
        ⟨i, yearGroupAt_some_iff.mpr hi,
         fun j hj => yearGroupAt_none_iff.mpr (hlt j hj)⟩
    unfold extract_year_from_url
    rw [hsome]
    exact extract_expand_eq g
  · intro url i g hprim hfall hflt
    have hnone : scanFirst yearGroupAt url.toList = none :=
      (scanFirst_eq_none yearGroupAt_nil).mpr
        (fun k => yearGroupAt_none_iff.mpr (hprim k))
    have hsome : scanFirst fallGroupAt url.toList = some g :=
      (scanFirst_eq_some fallGroupAt_nil).mpr
        ⟨i, fallGroupAt_some_iff.mpr hfall,
         fun j hj => by
          cases hfg : fallGroupAt (url.toList.drop j) with
          | none => rfl
          | some g' => exact absurd ⟨g', fallGroupAt_some_iff.mp hfg⟩ (hflt j hj)⟩
    unfold extract_year_from_url
    rw [hnone, hsome]
  · intro url hprim hfall
    have h1 : scanFirst yearGroupAt url.toList = none :=
      (scanFirst_eq_none yearGroupAt_nil).mpr
        (fun k => yearGroupAt_none_iff.mpr (hprim k))
    have h2 : scanFirst fallGroupAt url.toList = none :=
      (scanFirst_eq_none fallGroupAt_nil).mpr
        (fun k => by
          cases hfg : fallGroupAt (url.toList.drop k) with
          | none => rfl
          | some g' => exact absurd ⟨g', fallGroupAt_some_iff.mp hfg⟩ (hfall k))
    unfold extract_year_from_url
    rw [h1, h2]
  · intro url p h hy
    unfold fetch_ag_citation
    rw [hy]

/-- Witness for C1: the theorem applied at the concrete URL `en2024`,
whose primary match sits at position 0 with digit group `2024`. -/
theorem extract_year_claim_witness :
    extract_year_from_url "en2024" = some (expandYearSpec ['2', '0', '2', '4']) :=
  extract_year_claim.1 "en2024" 0 ['2', '0', '2', '4']
    ⟨['e', 'n'], [], Or.inl rfl, by decide, by decide, by decide, by decide,
      Or.inl (by decide)⟩
    (fun j hj => absurd hj (by omega))

/-- C10: when the leftmost en/ar/fr-prefixed digit group has exactly
three digits, the year derivation returns it unchanged — the `19`/`20`
expansion applies only to two-digit groups and the four-digit fallback
is not consulted — and the AG extractor proceeds with the three-digit
year in its citation. -/
theorem three_digit_year_claim :
    (∀ (url : String) (i : Nat) (g : List Char),
      PrimAt0 (url.toList.drop i) g →
      (∀ j, j < i → ¬ PrimPoss0 (url.toList.drop j)) →
      g.length = 3 →
      extract_year_from_url url = some (String.mk g))
    ∧ fetch_ag_citation "https://www.auditor.on.ca/reports/en123.html" none
        (some "Value for Money")
      = (some "Office of the Auditor General of Ontario, \"[Value for Money](https://www.auditor.on.ca/reports/en123.html)\", *123 Annual Report*.", none) := by
  constructor
  · intro url i g hi hlt h3
    have := extract_year_claim.1 url i g hi hlt
    rw [this]
    unfold expandYearSpec
    rw [h3]
    simp
  · rfl

/-- Witness for C10: the theorem applied at the concrete URL `en123`,
whose primary match sits at position 0 with the three-digit group. -/
theorem three_digit_year_claim_witness :
    extract_year_from_url "en123" = some (String.mk ['1', '2', '3']) :=
  three_digit_year_claim.1 "en123" 0 ['1', '2', '3']
    ⟨['e', 'n'], [], Or.inl rfl, by decide, by decide, by decide, by decide,
      Or.inr (fun c h => Option.noConfusion h)⟩
    (fun j hj => absurd hj (by omega))
    (by decide)

/-! ## Helper lemmas: the filename chapter/section regexes -/

theorem patAAt_some_iff {cs : List Char} {c s1 s2 : Char} :
    patAAt cs = some (c, s1, s2) ↔ PatA0 cs c s1 s2 := by
  constructor
  · intro h
    cases cs with
    | nil => simp [patAAt] at h
    | cons v r =>
      by_cases hv : v = 'v'
      · subst hv
        cases htw : r.takeWhile Char.isDigit with
        | nil => simp [patAAt, htw] at h
        | cons a ta =>
          cases hdw : r.dropWhile Char.isDigit with
          | nil => simp [patAAt, htw, hdw] at h
          | cons u t =>
            cases t with
            | nil => simp [patAAt, htw, hdw] at h
            | cons c1 t1 =>
              cases t1 with
              | nil => simp [patAAt, htw, hdw] at h
              | cons s1' t2 =>
                cases t2 with
                | nil => simp [patAAt, htw, hdw] at h
                | cons s2' t3 =>
                  simp only [patAAt, htw, hdw, if_true, List.isEmpty_cons,
                    Bool.false_eq_true, if_false] at h
                  by_cases hcond : u = '_' ∧ c1.isDigit = true ∧ s1'.isDigit = true ∧ s2'.isDigit = true
                  · obtain ⟨hu, hc, hs1, hs2⟩ := hcond
                    rw [if_pos ⟨hu, hc, hs1, hs2⟩] at h
                    subst hu
                    simp only [Option.some.injEq, Prod.mk.injEq] at h
                    obtain ⟨rfl, rfl, rfl⟩ := h
                    refine ⟨a :: ta, t3, ?_, by simp, ?_, hc, hs1, hs2⟩
                    · have hr : r = (a :: ta) ++ ('_' :: c1 :: s1' :: s2' :: t3) := by
                        conv_lhs => rw [← List.takeWhile_append_dropWhile (p := Char.isDigit) (l := r)]
                        rw [htw, hdw]
                      rw [hr]
                    · intro x hx
                      rw [← htw] at hx
                      simpa using List.mem_takeWhile_imp hx
                  · rw [if_neg hcond] at h
                    exact absurd h (by simp)
      · simp [patAAt, hv] at h
  · rintro ⟨ds, rest, hcs, hne, hdig, hc, hs1, hs2⟩
    subst hcs
    obtain ⟨htw, hdw⟩ := takeWhile_split (p := Char.isDigit) ds ('_' :: c :: s1 :: s2 :: rest)
      hdig (by intro x hx; injection hx with hx; subst hx; rfl)
    rw [patAAt]
    simp only [if_pos rfl]
    rw [htw, hdw]
    have hemp : ds.isEmpty = false := by
      cases ds with
      | nil => exact absurd rfl hne
      | cons a t => rfl
    simp [hemp, hc, hs1, hs2]
theorem patAAt_nil : patAAt [] = none := rfl

theorem patAPoss_iff {cs : List Char} :
    PatAPoss0 cs ↔ ∃ x, patAAt cs = some x := by
  constructor
  · rintro ⟨c, s1, s2, h⟩
    exact ⟨(c, s1, s2), patAAt_some_iff.mpr h⟩
  · rintro ⟨⟨c, s1, s2⟩, h⟩
    exact ⟨c, s1, s2, patAAt_some_iff.mp h⟩

theorem patAAt_none_iff {cs : List Char} :
    patAAt cs = none ↔ ¬ PatAPoss0 cs := by
  rw [patAPoss_iff]
  cases h : patAAt cs <;> simp [h]

theorem patBAt_some_iff {cs : List Char} {c s1 s2 : Char} :
    patBAt cs = some (c, s1, s2) ↔ PatB0 cs c s1 s2 := by
  constructor
  · intro h
    match cs, h with
    | c' :: s1' :: s2' :: e :: n :: d1 :: d2 :: rest, h =>
      rw [patBAt] at h
      split at h
      · next hcond =>
        obtain ⟨hc, hs1, hs2, he, hn, hd1, hd2⟩ := hcond
        subst he; subst hn
        injection h with h
        obtain ⟨rfl, rfl, rfl⟩ : c' = c ∧ s1' = s1 ∧ s2' = s2 := by
          injection h with h1 h2
          injection h2 with h2 h3
          exact ⟨h1, h2, h3⟩
        exact ⟨d1, d2, rest, rfl, by simpa using hc, by simpa using hs1,
          by simpa using hs2, by simpa using hd1, by simpa using hd2⟩
      · exact absurd h (by simp)
  · rintro ⟨d1, d2, rest, hcs, hc, hs1, hs2, hd1, hd2⟩
    subst hcs
    rw [patBAt]
    simp [hc, hs1, hs2, hd1, hd2]

theorem patB_none_iff {cs : List Char} :
    patBAt cs = none ↔ ∀ c s1 s2, ¬ PatB0 cs c s1 s2 := by
  constructor
  · intro h c s1 s2 hb
    rw [patBAt_some_iff.mpr hb] at h
    exact absurd h (by simp)
  · intro h
    cases hp : patBAt cs with
    | none => rfl
    | some x =>
      obtain ⟨c, s1, s2⟩ := x
      exact absurd (patBAt_some_iff.mp hp) (h c s1 s2)

theorem chapter_branch_eq (c s1 s2 : Char) :
    (if ¬ (s1 = '0' ∧ s2 = '0')
      then (some (String.mk [c]), some (String.mk [c, '.', s1, s2]))
      else (some (String.mk [c]), none))
    = chapterResultSpec c s1 s2 := by
  unfold chapterResultSpec
  by_cases h : s1 = '0' ∧ s2 = '0' <;> simp [h]

/-- C2: chapter/section derivation from a filename tries pattern (a)
`v<digits>_` followed by a chapter digit and a two-digit section code,
then pattern (b) a filename beginning with the chapter and section
digits followed by `en` and two digits; under either pattern a section
code of `00` yields the chapter alone, any other code yields the
chapter and `C.SS`; when neither pattern matches, both are absent.
In particular `v1_306en18.pdf` yields chapter `3` and section `3.06`,
`v1_300en18.pdf` yields chapter `3` with no section, and `306en18.pdf`
yields chapter `3` and section `3.06`. -/
theorem chapter_section_claim :
    (∀ (fn : String) (i : Nat) (c s1 s2 : Char),
      PatA0 (fn.toList.drop i) c s1 s2 →
      (∀ j, j < i → ¬ PatAPoss0 (fn.toList.drop j)) →
      extract_chapter_section_from_filename fn = chapterResultSpec c s1 s2)
    ∧ (∀ (fn : String) (c s1 s2 : Char),
      (∀ k, ¬ PatAPoss0 (fn.toList.drop k)) →
      PatB0 fn.toList c s1 s2 →
      extract_chapter_section_from_filename fn = chapterResultSpec c s1 s2)
    ∧ (∀ fn : String,
      (∀ k, ¬ PatAPoss0 (fn.toList.drop k)) →
      (∀ c s1 s2, ¬ PatB0 fn.toList c s1 s2) →
      extract_chapter_section_from_filename fn = (none, none))
    ∧ extract_chapter_section_from_filename "v1_306en18.pdf" = (some "3", some "3.06")
    ∧ extract_chapter_section_from_filename "v1_300en18.pdf" = (some "3", none)
    ∧ extract_chapter_section_from_filename "306en18.pdf" = (some "3", some "3.06") := by
  refine ⟨?_, ?_, ?_, by rfl, by rfl, by rfl⟩
  · intro fn i c s1 s2 hi hlt
    have hsome : scanFirst patAAt fn.toList = some (c, s1, s2) :=
      (scanFirst_eq_some patAAt_nil).mpr
        ⟨i, patAAt_some_iff.mpr hi, fun j hj => patAAt_none_iff.mpr (hlt j hj)⟩
    unfold extract_chapter_section_from_filename
    rw [hsome]
    exact chapter_branch_eq c s1 s2
  · intro fn c s1 s2 hka hb
    have hnone : scanFirst patAAt fn.toList = none :=
      (scanFirst_eq_none patAAt_nil).mpr (fun k => patAAt_none_iff.mpr (hka k))
    unfold extract_chapter_section_from_filename
    rw [hnone, patBAt_some_iff.mpr hb]
    exact chapter_branch_eq c s1 s2
  · intro fn hka hkb
    have hnone : scanFirst patAAt fn.toList = none :=
      (scanFirst_eq_none patAAt_nil).mpr (fun k => patAAt_none_iff.mpr (hka k))
    unfold extract_chapter_section_from_filename
    rw [hnone, patB_none_iff.mpr hkb]

/-- Witness for C2: the theorem applied at the concrete filename
`v1_306en18.pdf`, whose pattern-(a) match sits at position 0. -/
theorem chapter_section_claim_witness :
    extract_chapter_section_from_filename "v1_306en18.pdf" = chapterResultSpec '3' '0' '6' :=
  chapter_section_claim.1 "v1_306en18.pdf" 0 '3' '0' '6'
    ⟨['1'], ['e', 'n', '1', '8', '.', 'p', 'd', 'f'], by decide, by decide, by decide,
      by decide, by decide, by decide⟩
    (fun j hj => absurd hj (by omega))

/-- C6: the classifier is a total pure function with first-match-wins,
case-sensitive substring rules: any URL containing `auditor.on.ca` is
an AG report (`some "ag"`) regardless of other substrings; otherwise
`news.ontario.ca` gives a news release; otherwise an e-Laws statute or
regulation path gives legislation; every other URL is unrecognized
(`none`). -/
theorem classifier_claim :
    (∀ url : String, strContains url "auditor.on.ca" = true →
      detect_citation_type url = some "ag")
    ∧ (∀ url : String, strContains url "auditor.on.ca" = false →
      strContains url "news.ontario.ca" = true →
      detect_citation_type url = some "news")
    ∧ (∀ url : String, strContains url "auditor.on.ca" = false →
      strContains url "news.ontario.ca" = false →
      (strContains url "ontario.ca/laws/statute" = true ∨
        strContains url "ontario.ca/laws/regulation" = true) →
      detect_citation_type url = some "elaws")
    ∧ (∀ url : String, strContains url "auditor.on.ca" = false →
      strContains url "news.ontario.ca" = false →
      strContains url "ontario.ca/laws/statute" = false →
      strContains url "ontario.ca/laws/regulation" = false →
      detect_citation_type url = none)
    ∧ detect_citation_type "https://news.ontario.ca/auditor.on.ca" = some "ag" := by
  refine ⟨?_, ?_, ?_, ?_, by rfl⟩
  · intro url h
    simp [detect_citation_type, h]
  · intro url h1 h2
    simp [detect_citation_type, h1, h2]
  · intro url h1 h2 h3
    rcases h3 with h3 | h3 <;> simp [detect_citation_type, h1, h2, h3]
  · intro url h1 h2 h3 h4
    simp [detect_citation_type, h1, h2, h3, h4]

/-- Witness for C6: the theorem applied at a concrete URL of each
classifier hypothesis; the audit-report rule at `auditor.on.ca`. -/
theorem classifier_claim_witness :
    detect_citation_type "https://www.auditor.on.ca/en/x.html" = some "ag" :=
  classifier_claim.1 "https://www.auditor.on.ca/en/x.html" (by rfl)

/-- C8: when the e-Laws fetch or parse fails for any reason, the
extractor returns a record carrying the error message with the full
title, short title and section all absent, and with the regulation
flag computed from the URL (substring `regulation`) regardless of the
fetch outcome; no exception propagates (the embedding is a total
function into `ElawsData`). -/
theorem elaws_error_claim :
    (∀ (url e : String),
      fetch_elaws_citation url (Except.error e) =
        { error := some e, full_title := none, short_title := none, sec := none,
          clean_url := none, is_regulation := strContains url "regulation",
          full_citation := none, short_citation := none })
    ∧ (∀ (url : String) (f : Except String ElawsPage),
      (fetch_elaws_citation url f).is_regulation = strContains url "regulation") := by
  constructor
  · intro url e
    rfl
  · intro url f
    cases f with
    | error e => rfl
    | ok page => rfl

/-! ## Helper lemmas: ministry deduplication -/

theorem membStr_append (x : String) (a b : List String) :
    membStr x (a ++ b) = (membStr x a || membStr x b) := by
  induction a with
  | nil => simp [membStr]
  | cons y ys ih =>
    by_cases hxy : x = y <;> simp [membStr, hxy, ih]

theorem specGo_append_dedup (main : String) :
    ∀ (partners : List (Option String)) (acc seen : List String),
      (∀ x, membStr x acc = membStr x seen) → membStr main acc = true →
      ministrySpecGo main acc partners =
        acc ++ dedupAux seen (partners.filterMap (fun m =>
          match m with
          | some n => if n ≠ main then some n else none
          | none => none)) := by
  intro partners
  induction partners with
  | nil =>
    intro acc seen hms hmain
    simp [ministrySpecGo, dedupAux]
  | cons m ms ih =>
    intro acc seen hms hmain
    cases m with
    | none =>
      simp only [ministrySpecGo, List.filterMap_cons]
      exact ih acc seen hms hmain
    | some n =>
      by_cases hn : n = main
      · subst hn
        simp only [ministrySpecGo, ne_eq, not_true_eq_false, false_and, if_false,
          List.filterMap_cons, ite_self]
        exact ih acc seen hms hmain
      · by_cases hmem : membStr n acc = true
        · have hseen : membStr n seen = true := by rw [← hms]; exact hmem
          simp only [ministrySpecGo, ne_eq, hn, not_false_eq_true, true_and, hmem,
            Bool.true_eq_false, if_false, List.filterMap_cons, if_pos hn, dedupAux, hseen,
            if_true]
          exact ih acc seen hms hmain
        · have hmemf : membStr n acc = false := by
            cases hx : membStr n acc with
            | false => rfl
            | true => exact absurd hx hmem
          have hseen : membStr n seen = false := by rw [← hms]; exact hmemf
          simp only [ministrySpecGo, ne_eq, hn, not_false_eq_true, true_and, hmemf,
            if_true, List.filterMap_cons, if_pos hn, dedupAux, hseen, Bool.false_eq_true,
            if_false]
          rw [ih (acc ++ [n]) (n :: seen) ?_ ?_]
          · rw [List.append_assoc]
            rfl
          · intro x
            rw [membStr_append]
            by_cases hxn : x = n <;> simp [membStr, hxn, hms x]
          · rw [membStr_append, hmain]
            rfl

theorem dedupAux_nodup :
    ∀ (l seen : List String),
      (dedupAux seen l).Nodup ∧ ∀ x ∈ dedupAux seen l, membStr x seen = false := by
  intro l
  induction l with
  | nil => intro seen; simp [dedupAux]
  | cons x xs ih =>
    intro seen
    by_cases hx : membStr x seen = true
    · simpa [dedupAux, hx] using ih seen
    · have hxf : membStr x seen = false := by
        cases hc : membStr x seen with
        | false => rfl
        | true => exact absurd hc hx
      obtain ⟨hnd, hmem⟩ := ih (x :: seen)
      simp only [dedupAux, hxf, Bool.false_eq_true, if_false, List.nodup_cons]
      refine ⟨⟨?_, hnd⟩, ?_⟩
      · intro hmemx
        have := hmem x hmemx
        simp [membStr] at this
      · intro y hy
        rcases List.mem_cons.mp hy with hy | hy
        · rw [hy]; exact hxf
        · have := hmem y hy
          by_cases hyx : y = x
          · subst hyx; simp [membStr] at this
          · simpa [membStr, hyx] using this

theorem ministriesSpec_eq (main : String) (partners : List (Option String)) :
    ministriesSpecList main partners =
      main :: dedupAux [main] (partners.filterMap (fun m =>
        match m with
        | some n => if n ≠ main then some n else none
        | none => none)) := by
  unfold ministriesSpecList
  rw [specGo_append_dedup main partners [main] [main] (fun x => rfl) (by simp [membStr])]
  rfl

/-- C7: `format_ministries` builds the deduplicated ordered list that
starts with the main ministry and appends each partner name that is
neither the main ministry nor already present (first occurrence wins),
then joins it: one item is itself, two items are `A and B`, three or
more are comma-separated with an Oxford comma before the final `and`. -/
theorem ministries_claim :
    (∀ (main : String) (partners : List (Option String)),
      format_ministries main partners = joinSpecList (ministriesSpecList main partners))
    ∧ (∀ (main : String) (partners : List (Option String)),
      (ministriesSpecList main partners).Nodup)
    ∧ (∀ (main : String) (partners : List (Option String)),
      (ministriesSpecList main partners).head? = some main)
    ∧ format_ministries "A" [some "B"] = "A and B"
    ∧ format_ministries "A" [some "B", some "C"] = "A, B, and C"
    ∧ format_ministries "A" [some "A"] = "A"
    ∧ format_ministries "A" [some "B", some "B", none] = "A and B" := by
  refine ⟨?_, ?_, ?_, by rfl, by rfl, by rfl, by rfl⟩
  · intro main partners
    have hcode : dedupAux [] (main :: partners.filterMap (fun m =>
        match m with
        | some n => if n ≠ main then some n else none
        | none => none)) =
        main :: dedupAux [main] (partners.filterMap (fun m =>
          match m with
          | some n => if n ≠ main then some n else none
          | none => none)) := by
      simp [dedupAux, membStr]
    simp only [format_ministries]
    rw [hcode, ministriesSpec_eq main partners]
    generalize dedupAux [main] (partners.filterMap (fun m =>
      match m with
      | some n => if n ≠ main then some n else none
      | none => none)) = D
    cases D with
    | nil => rfl
    | cons b D2 =>
      cases D2 with
      | nil => rfl
      | cons c D3 => rfl
  · intro main partners
    rw [ministriesSpec_eq main partners]
    rw [List.nodup_cons]
    constructor
    · intro hmm
      have := (dedupAux_nodup _ [main]).2 main hmm
      simp [membStr] at this
    · exact (dedupAux_nodup _ [main]).1
  · intro main partners
    rw [ministriesSpec_eq main partners]
    rfl

/-! ## Helper lemmas: the markup tokenizer -/

theorem scanClose_spec {d : Char} :
    ∀ {cs t r : List Char}, scanClose d cs = some (t, r) → t ++ r = cs ∧ t ≠ [] := by
  intro cs
  induction cs with
  | nil => intro t r h; simp [scanClose] at h
  | cons c cs ih =>
    intro t r h
    rw [scanClose] at h
    by_cases hc : c = d
    · rw [if_pos hc] at h
      simp only [Option.some.injEq, Prod.mk.injEq] at h
      obtain ⟨rfl, rfl⟩ := h
      exact ⟨rfl, by simp⟩
    · rw [if_neg hc] at h
      by_cases hn : c = '\n'
      · rw [if_pos hn] at h; simp at h
      · rw [if_neg hn] at h
        cases hrec : scanClose d cs with
        | none => rw [hrec] at h; simp at h
        | some p =>
          obtain ⟨t0, r0⟩ := p
          rw [hrec] at h
          simp only [Option.some.injEq, Prod.mk.injEq] at h
          obtain ⟨rfl, rfl⟩ := h
          obtain ⟨ha, -⟩ := ih hrec
          exact ⟨by rw [List.cons_append, ha], by simp⟩

theorem scanBrackParen_spec :
    ∀ {cs t r : List Char}, scanBrackParen cs = some (t, r) → t ++ r = cs ∧ t ≠ [] := by
  intro cs
  induction cs with
  | nil => intro t r h; simp [scanBrackParen] at h
  | cons a cs ih =>
    intro t r h
    cases cs with
    | nil => simp [scanBrackParen] at h
    | cons b cs2 =>
      rw [scanBrackParen] at h
      by_cases hab : a = ']' ∧ b = '('
      · rw [if_pos hab] at h
        simp only [Option.some.injEq, Prod.mk.injEq] at h
        obtain ⟨rfl, rfl⟩ := h
        exact ⟨rfl, by simp⟩
      · rw [if_neg hab] at h
        by_cases hn : a = '\n'
        · rw [if_pos hn] at h; simp at h
        · rw [if_neg hn] at h
          cases hrec : scanBrackParen (b :: cs2) with
          | none => rw [hrec] at h; simp at h
          | some p =>
            obtain ⟨t0, r0⟩ := p
            rw [hrec] at h
            simp only [Option.some.injEq, Prod.mk.injEq] at h
            obtain ⟨rfl, rfl⟩ := h
            obtain ⟨ha, -⟩ := ih hrec
            exact ⟨by rw [List.cons_append, ha], by simp⟩

theorem matchToken_spec :
    ∀ {cs t r : List Char}, matchToken cs = some (t, r) → t ++ r = cs ∧ t ≠ [] := by
  intro cs t r h
  cases cs with
  | nil => simp [matchToken] at h
  | cons c rest =>
    rw [matchToken] at h
    by_cases hbr : c = '['
    · rw [if_pos hbr] at h
      cases h1 : scanBrackParen rest with
      | none => rw [h1] at h; simp at h
      | some p1 =>
        obtain ⟨t1, r1⟩ := p1
        simp only [h1] at h
        cases h2 : scanClose ')' r1 with
        | none => simp [h2] at h
        | some p2 =>
          obtain ⟨t2, r2⟩ := p2
          simp only [h2] at h
          simp only [Option.some.injEq, Prod.mk.injEq] at h
          obtain ⟨rfl, rfl⟩ := h
          obtain ⟨ha1, -⟩ := scanBrackParen_spec h1
          obtain ⟨ha2, -⟩ := scanClose_spec h2
          refine ⟨?_, by simp⟩
          rw [List.cons_append, List.append_assoc, ha2, ha1]
    · rw [if_neg hbr] at h
      by_cases hst : c = '*'
      · rw [if_pos hst] at h
        cases h1 : scanClose '*' rest with
        | none => rw [h1] at h; simp at h
        | some p1 =>
          obtain ⟨t1, r1⟩ := p1
          simp only [h1] at h
          simp only [Option.some.injEq, Prod.mk.injEq] at h
          obtain ⟨rfl, rfl⟩ := h
          obtain ⟨ha1, -⟩ := scanClose_spec h1
          exact ⟨by rw [List.cons_append, ha1], by simp⟩
      · rw [if_neg hst] at h
        by_cases hun : c = '_'
        · rw [if_pos hun] at h
          cases h1 : scanClose '_' rest with
          | none => rw [h1] at h; simp at h
          | some p1 =>
            obtain ⟨t1, r1⟩ := p1
            simp only [h1] at h
            simp only [Option.some.injEq, Prod.mk.injEq] at h
            obtain ⟨rfl, rfl⟩ := h
            obtain ⟨ha1, -⟩ := scanClose_spec h1
            exact ⟨by rw [List.cons_append, ha1], by simp⟩
        · rw [if_neg hun] at h
          simp at h

theorem tokenizeFuel_concat :
    ∀ (n : Nat) (acc cs : List Char),
      listFlat (tokenizeFuel n acc cs) = acc.reverse ++ cs := by
  intro n
  induction n with
  | zero => intro acc cs; simp [tokenizeFuel, listFlat]
  | succ n ih =>
    intro acc cs
    cases cs with
    | nil => simp [tokenizeFuel, listFlat]
    | cons c cs2 =>
      rw [tokenizeFuel]
      cases hm : matchToken (c :: cs2) with
      | none =>
        simp only [hm]
        rw [ih (c :: acc) cs2]
        simp
      | some p =>
        obtain ⟨t, r⟩ := p
        simp only [hm]
        rw [listFlat, listFlat, ih [] r]
        simp only [List.reverse_nil, List.nil_append]
        rw [(matchToken_spec hm).1]

/-- C4: tokenizing a citation string with the renderer's grammar
(hyperlink, italic, plain-text runs) and concatenating the produced
parts back in order reconstructs exactly the original string: the
concatenation of the parts of the tokenizer's split of any input
equals that input. -/
theorem markup_roundtrip_claim :
    ∀ s : String, String.mk (listFlat (splitParts s)) = s := by
  intro s
  unfold splitParts
  rw [tokenizeFuel_concat]
  cases s with
  | mk d => rfl

/-- C5 (failing input): the renderer is not total.  On the citation
`"[a\n](b)"` the tokenizer emits the whole string as one plain part
(the hyperlink alternative cannot cross the newline), the hyperlink
branch condition `startswith('[') and '](' in part and endswith(')')`
nevertheless holds, and `re.findall(r'\[(.*?)\]', part)` is empty, so
indexing `[0]` raises — modelled as the renderer returning `none`.
On newline-free malformed markup the parts do fall through to the
plain-text run, as the second and third conjuncts show. -/
theorem renderer_crash_input :
    generate_docx ["[a\n](b)"] = none
    ∧ renderParagraph "[abc" = some [DocxRun.plain "[abc", DocxRun.plain "\n"]
    ∧ renderParagraph "a *b c" =
        some [DocxRun.plain "a *b c", DocxRun.plain "\n"] := by
  refine ⟨by rfl, by rfl, by rfl⟩

/-- C9 (counterexample): `is_pdf_url` tests the whole URL string, not
the URL's path.  For a URL whose path ends in `.pdf` but which carries
a query string, the claim says the AG extractor still treats it as a
PDF report; the code takes the HTML branch instead (visible through
the HTML-branch error even though a PDF title is available). -/
theorem ag_format_branch_counterexample :
    listEndsWith (urlPathSpec "https://www.auditor.on.ca/ar/v1_306en18.pdf?x=1").toList
        ['.', 'p', 'd', 'f'] = true
    ∧ is_pdf_url "https://www.auditor.on.ca/ar/v1_306en18.pdf?x=1" = false
    ∧ fetch_ag_citation "https://www.auditor.on.ca/ar/v1_306en18.pdf?x=1"
        (some "Ontario Land Tribunal") none
      = (none, some "Could not extract title from page") := by
  refine ⟨by rfl, by rfl, by rfl⟩

/-- C9 (amended): the AG extractor treats a URL as a PDF report if and
only if the entire URL, lowercased, ends in `.pdf`; a URL whose path
ends in `.pdf` but which carries a query string or fragment is treated
as an HTML report.  When the flag is set the result never depends on
the HTML title and the missing-PDF-title error is reported; when it is
clear the result never depends on the PDF title and the missing-page
error is reported. -/
theorem ag_format_branch_amended :
    (∀ url : String, is_pdf_url url = lowerEndsPdfSpec url)
    ∧ (∀ (url y : String) (p h h2 : Option String),
      extract_year_from_url url = some y → lowerEndsPdfSpec url = true →
      fetch_ag_citation url p h = fetch_ag_citation url p h2)
    ∧ (∀ (url y : String) (p p2 h : Option String),
      extract_year_from_url url = some y → lowerEndsPdfSpec url = false →
      fetch_ag_citation url p h = fetch_ag_citation url p2 h)
    ∧ (∀ (url y : String) (h : Option String),
      extract_year_from_url url = some y → lowerEndsPdfSpec url = true →
      fetch_ag_citation url none h = (none, some "Could not extract title from PDF"))
    ∧ (∀ (url y : String) (p : Option String),
      extract_year_from_url url = some y → lowerEndsPdfSpec url = false →
      fetch_ag_citation url p none = (none, some "Could not extract title from page")) := by
  have hpdf : ∀ url : String, is_pdf_url url = lowerEndsPdfSpec url := fun url => rfl
  refine ⟨hpdf, ?_, ?_, ?_, ?_⟩
  · intro url y p h h2 hy hb
    unfold fetch_ag_citation
    rw [hy, hpdf url, hb]
    simp only [if_true]
  · intro url y p p2 h hy hb
    unfold fetch_ag_citation
    rw [hy, hpdf url, hb]
    simp only [Bool.false_eq_true, if_false]
  · intro url y h hy hb
    unfold fetch_ag_citation
    rw [hy, hpdf url, hb]
    simp only [if_true]
  · intro url y p hy hb
    unfold fetch_ag_citation
    rw [hy, hpdf url, hb]
    simp only [Bool.false_eq_true, if_false]

/-- Witness for the amended C9: applied at a query-free PDF URL, where
the PDF branch is selected and the missing-PDF-title error results. -/
theorem ag_format_branch_amended_witness :
    fetch_ag_citation "https://www.auditor.on.ca/ar/v1_306en18.pdf" none none
      = (none, some "Could not extract title from PDF") :=
  ag_format_branch_amended.2.2.2.1 "https://www.auditor.on.ca/ar/v1_306en18.pdf" "2018"
    none (by rfl) (by rfl)

/-! ## Helper lemmas: the e-Laws title regexes -/

theorem digit_not_pySpace {x : Char} (hx : x.isDigit = true) : pySpace x = false := by
  by_cases h1 : x = ' '
  · subst h1; exact absurd hx (by decide)
  by_cases h2 : x = '\t'
  · subst h2; exact absurd hx (by decide)
  by_cases h3 : x = '\n'
  · subst h3; exact absurd hx (by decide)
  by_cases h4 : x = '\r'
  · subst h4; exact absurd hx (by decide)
  by_cases h5 : x = '\x0b'
  · subst h5; exact absurd hx (by decide)
  by_cases h6 : x = '\x0c'
  · subst h6; exact absurd hx (by decide)
  simp [pySpace, h1, h2, h3, h4, h5, h6]

theorem statuteShortMatch_some_iff {cs m : List Char} :
    statuteShortMatch cs = some m ↔ StatuteDecomp cs m := by
  constructor
  · intro h
    have hsplit : cs = cs.takeWhile (fun c => c != ',') ++ cs.dropWhile (fun c => c != ',') :=
      (List.takeWhile_append_dropWhile ..).symm
    unfold statuteShortMatch at h
    cases htw : cs.takeWhile (fun c => c != ',') with
    | nil => rw [htw] at h; simp at h
    | cons a0 t0 =>
      rw [htw] at h
      simp only [List.isEmpty_cons, Bool.false_eq_true, if_false] at h
      cases hdw : cs.dropWhile (fun c => c != ',') with
      | nil => simp [hdw] at h
      | cons x1 l1 =>
        cases l1 with
        | nil => simp [hdw] at h
        | cons x2 l2 =>
          cases l2 with
          | nil => simp [hdw] at h
          | cons x3 l3 =>
            cases l3 with
            | nil => simp [hdw] at h
            | cons x4 l4 =>
              cases l4 with
              | nil => simp [hdw] at h
              | cons x5 l5 =>
                cases l5 with
                | nil => simp [hdw] at h
                | cons x6 l6 =>
                  simp only [hdw] at h
                  by_cases hcond : x1 = ',' ∧ x2 = ' ' ∧ x3.isDigit = true ∧ x4.isDigit = true
                      ∧ x5.isDigit = true ∧ x6.isDigit = true
                  · obtain ⟨h1, h2, h3, h4, h5, h6⟩ := hcond
                    rw [if_pos ⟨h1, h2, h3, h4, h5, h6⟩] at h
                    subst h1
                    subst h2
                    injection h with h
                    refine ⟨a0 :: t0, x3, x4, x5, x6, l6, ?_, ?_, by simp, ?_, h3, h4, h5, h6⟩
                    · rw [hsplit, htw, hdw]
                    · rw [← h]
                    · intro x hx
                      rw [← htw] at hx
                      simpa using List.mem_takeWhile_imp hx
                  · rw [if_neg hcond] at h
                    simp at h
  · rintro ⟨t, d1, d2, d3, d4, rest, hcs, hm, htne, htc, h1, h2, h3, h4⟩
    subst hcs
    obtain ⟨htw, hdw⟩ := takeWhile_split (p := fun c => c != ',') t
      (',' :: ' ' :: d1 :: d2 :: d3 :: d4 :: rest)
      (by intro x hx; simpa using htc x hx)
      (by intro x hx; injection hx with hx; subst hx; rfl)
    unfold statuteShortMatch
    rw [htw, hdw]
    have hemp : t.isEmpty = false := by
      cases t with
      | nil => exact absurd rfl htne
      | cons a u => rfl
    simp only [hemp, Bool.false_eq_true, if_false]
    simp [h1, h2, h3, h4, hm]

theorem oRegMatch_some_iff {cs m : List Char} :
    oRegMatch cs = some m ↔ ORegDecomp cs m := by
  constructor
  · intro h
    cases cs with
    | nil => simp [oRegMatch] at h
    | cons a t =>
      cases t with
      | nil => simp [oRegMatch] at h
      | cons b r1 =>
        rw [oRegMatch] at h
        by_cases hab : a = 'O' ∧ b = '.'
        case neg => rw [if_neg hab] at h; simp at h
        obtain ⟨ha, hb⟩ := hab
        subst ha
        subst hb
        rw [if_pos ⟨rfl, rfl⟩] at h
        cases hdw1 : r1.dropWhile pySpace with
        | nil => simp [hdw1] at h
        | cons c1 l1 =>
          cases l1 with
          | nil => simp [hdw1] at h
          | cons c2 l2 =>
            cases l2 with
            | nil => simp [hdw1] at h
            | cons c3 l3 =>
              cases l3 with
              | nil => simp [hdw1] at h
              | cons c4 r2 =>
                simp only [hdw1] at h
                by_cases hReg : c1 = 'R' ∧ c2 = 'e' ∧ c3 = 'g' ∧ c4 = '.'
                case neg => rw [if_neg hReg] at h; simp at h
                obtain ⟨hc1, hc2, hc3, hc4⟩ := hReg
                subst hc1
                subst hc2
                subst hc3
                subst hc4
                rw [if_pos ⟨rfl, rfl, rfl, rfl⟩] at h
                cases htk3 : (r2.dropWhile pySpace).takeWhile Char.isDigit with
                | nil => simp [htk3] at h
                | cons e d1' =>
                  simp only [htk3, List.isEmpty_cons, Bool.false_eq_true, if_false] at h
                  cases hdw3 : (r2.dropWhile pySpace).dropWhile Char.isDigit with
                  | nil => simp [hdw3] at h
                  | cons s r4 =>
                    simp only [hdw3] at h
                    by_cases hs : s = '/'
                    case neg => rw [if_neg hs] at h; simp at h
                    subst hs
                    rw [if_pos rfl] at h
                    cases htk4 : r4.takeWhile Char.isDigit with
                    | nil => simp [htk4] at h
                    | cons f d2' =>
                      simp only [htk4, List.isEmpty_cons, Bool.false_eq_true, if_false] at h
                      injection h with h
                      refine ⟨r1.takeWhile pySpace, r2.takeWhile pySpace, e :: d1', f :: d2',
                        r4.dropWhile Char.isDigit, ?_, h.symm, ?_, ?_, by simp, ?_, by simp, ?_, ?_⟩
                      · have e1 : r1 = r1.takeWhile pySpace ++ ('R' :: 'e' :: 'g' :: '.' :: r2) := by
                          conv_lhs => rw [← List.takeWhile_append_dropWhile (p := pySpace) (l := r1)]
                          rw [hdw1]
                        have e2 : r2 = r2.takeWhile pySpace ++ r2.dropWhile pySpace :=
                          (List.takeWhile_append_dropWhile ..).symm
                        have e3 : r2.dropWhile pySpace = (e :: d1') ++ ('/' :: r4) := by
                          conv_lhs => rw [← List.takeWhile_append_dropWhile
                            (p := Char.isDigit) (l := r2.dropWhile pySpace)]
                          rw [htk3, hdw3]
                        have e4 : r4 = (f :: d2') ++ r4.dropWhile Char.isDigit := by
                          conv_lhs => rw [← List.takeWhile_append_dropWhile
                            (p := Char.isDigit) (l := r4)]
                          rw [htk4]
                        conv_lhs => rw [e1, e2, e3, e4]
                      · intro x hx
                        exact List.mem_takeWhile_imp hx
                      · intro x hx
                        exact List.mem_takeWhile_imp hx
                      · intro x hx
                        rw [← htk3] at hx
                        exact List.mem_takeWhile_imp hx
                      · intro x hx
                        rw [← htk4] at hx
                        exact List.mem_takeWhile_imp hx
                      · intro x hx
                        cases hdr : r4.dropWhile Char.isDigit with
                        | nil => rw [hdr] at hx; simp at hx
                        | cons y ys =>
                          rw [hdr] at hx
                          simp only [List.head?_cons, Option.some.injEq] at hx
                          subst hx
                          exact dropWhile_head_false hdr
  · rintro ⟨w1, w2, d1, d2, rest, hcs, hm, hw1, hw2, hd1ne, hd1dig, hd2ne, hd2dig, hrest⟩
    subst hcs
    obtain ⟨ht1, hd1'⟩ := takeWhile_split (p := pySpace) w1
      ('R' :: 'e' :: 'g' :: '.' :: (w2 ++ (d1 ++ '/' :: (d2 ++ rest)))) hw1
      (by intro x hx; injection hx with hx; subst hx; rfl)
    cases d1 with
    | nil => exact absurd rfl hd1ne
    | cons e d1' =>
      obtain ⟨ht2, hd2'⟩ := takeWhile_split (p := pySpace) w2
        ((e :: d1') ++ '/' :: (d2 ++ rest)) hw2
        (by intro x hx; injection hx with hx; subst hx;
            exact digit_not_pySpace (hd1dig e (by simp)))
      obtain ⟨ht3, hd3'⟩ := takeWhile_split (p := Char.isDigit) (e :: d1')
        ('/' :: (d2 ++ rest)) hd1dig
        (by intro x hx; injection hx with hx; subst hx; rfl)
      cases d2 with
      | nil => exact absurd rfl hd2ne
      | cons f d2' =>
        obtain ⟨ht4, hd4'⟩ := takeWhile_split (p := Char.isDigit) (f :: d2') rest hd2dig
          (by intro x hx; exact hrest x hx)
        simp only [oRegMatch, ht1, hd1', ht2, hd2', ht3, hd3', ht4, List.isEmpty_cons,
          Bool.false_eq_true, if_false, if_true]
        simp [hm]

theorem oRegMatch_none_iff {cs : List Char} :
    oRegMatch cs = none ↔ ∀ m, ¬ ORegDecomp cs m := by
  constructor
  · intro h m hd
    rw [oRegMatch_some_iff.mpr hd] at h
    exact absurd h (by simp)
  · intro h
    cases hp : oRegMatch cs with
    | none => rfl
    | some m0 => exact absurd (oRegMatch_some_iff.mp hp) (h m0)

theorem statuteShortMatch_none_iff {cs : List Char} :
    statuteShortMatch cs = none ↔ ∀ m, ¬ StatuteDecomp cs m := by
  constructor
  · intro h m hd
    rw [statuteShortMatch_some_iff.mpr hd] at h
    exact absurd h (by simp)
  · intro h
    cases hp : statuteShortMatch cs with
    | none => rfl
    | some m0 => exact absurd (statuteShortMatch_some_iff.mp hp) (h m0)

/-- C3 (amended): for every nonempty fetched legislation page title
that does not begin with `-`, the full title is the portion of the
page title before the first `-`, trimmed of whitespace.  When the URL
marks a regulation the short title is the leading match of
`O. Reg. <digits>/<digits>` (flexible internal spacing) against the
full title, falling back to the whole full title, and the full title
is set to absent; when it marks a statute the short title is the
leading match of `<text before first comma>, <4-digit year>`, falling
back to the whole full title, and the full title is retained.  The
title `O. Reg. 221/08 - General` gives an absent full title and short
citation `[O. Reg. 221/08](<cleanUrl>).` with no section present, and
`Early Childhood Educators Act, 2007 - ...` gives short title
`Early Childhood Educators Act, 2007` with the pre-dash text
retained. -/
theorem elaws_title_claim :
    (∀ (t : String) (c : Char) (r : List Char), t.toList = c :: r → c ≠ '-' →
      full_title_of t = pyStrip (beforeFirstDash t))
    ∧ (∀ (url : String) (page : ElawsPage) (m : List Char),
      strContains url "regulation" = true → page.page_title ≠ "" →
      (fetch_elaws_citation url (Except.ok page)).full_title = none
      ∧ (ORegDecomp (full_title_of page.page_title).toList m →
          (fetch_elaws_citation url (Except.ok page)).short_title = some (String.mk m))
      ∧ ((∀ m', ¬ ORegDecomp (full_title_of page.page_title).toList m') →
          (fetch_elaws_citation url (Except.ok page)).short_title =
            some (full_title_of page.page_title)))
    ∧ (∀ (url : String) (page : ElawsPage) (m : List Char),
      strContains url "regulation" = false → page.page_title ≠ "" →
      (fetch_elaws_citation url (Except.ok page)).full_title =
          some (full_title_of page.page_title)
      ∧ (StatuteDecomp (full_title_of page.page_title).toList m →
          (fetch_elaws_citation url (Except.ok page)).short_title = some (String.mk m))
      ∧ ((∀ m', ¬ StatuteDecomp (full_title_of page.page_title).toList m') →
          (fetch_elaws_citation url (Except.ok page)).short_title =
            some (full_title_of page.page_title)))
    ∧ ((fetch_elaws_citation "https://www.ontario.ca/laws/regulation/080221"
          (Except.ok ⟨"O. Reg. 221/08 - General", fun _ => false, fun _ => []⟩)).full_title
        = none
      ∧ (fetch_elaws_citation "https://www.ontario.ca/laws/regulation/080221"
          (Except.ok ⟨"O. Reg. 221/08 - General", fun _ => false, fun _ => []⟩)).short_citation
        = some "[O. Reg. 221/08](https://www.ontario.ca/laws/regulation/080221).")
    ∧ ((fetch_elaws_citation "https://www.ontario.ca/laws/statute/07e07"
          (Except.ok ⟨"Early Childhood Educators Act, 2007 - Ontario.ca",
            fun _ => false, fun _ => []⟩)).full_title
        = some "Early Childhood Educators Act, 2007"
      ∧ (fetch_elaws_citation "https://www.ontario.ca/laws/statute/07e07"
          (Except.ok ⟨"Early Childhood Educators Act, 2007 - Ontario.ca",
            fun _ => false, fun _ => []⟩)).short_title
        = some "Early Childhood Educators Act, 2007") := by
  refine ⟨?_, ?_, ?_, ⟨by rfl, by rfl⟩, ⟨by rfl, by rfl⟩⟩
  · intro t c r htl hc
    unfold full_title_of beforeFirstDash pyStrip
    rw [htl, List.takeWhile_cons_of_pos (p := fun c => c != '-') (a := c) (by simp [hc])]
    simp only [List.isEmpty_cons, Bool.false_eq_true, if_false]
    rfl
  · intro url page m hreg ht
    have hfull : (fetch_elaws_citation url (Except.ok page)).full_title
        = (elaws_titles page.page_title (strContains url "regulation")).1 := rfl
    have hshort : (fetch_elaws_citation url (Except.ok page)).short_title
        = some (elaws_titles page.page_title (strContains url "regulation")).2 := rfl
    rw [hreg] at hfull hshort
    refine ⟨?_, ?_, ?_⟩
    · rw [hfull]
      unfold elaws_titles
      rw [if_pos ht]
      simp
    · intro hdec
      rw [hshort]
      unfold elaws_titles
      rw [if_pos ht]
      simp only [if_true]
      rw [oRegMatch_some_iff.mpr hdec]
    · intro hnone
      rw [hshort]
      unfold elaws_titles
      rw [if_pos ht]
      simp only [if_true]
      rw [oRegMatch_none_iff.mpr hnone]
  · intro url page m hreg ht
    have hfull : (fetch_elaws_citation url (Except.ok page)).full_title
        = (elaws_titles page.page_title (strContains url "regulation")).1 := rfl
    have hshort : (fetch_elaws_citation url (Except.ok page)).short_title
        = some (elaws_titles page.page_title (strContains url "regulation")).2 := rfl
    rw [hreg] at hfull hshort
    refine ⟨?_, ?_, ?_⟩
    · rw [hfull]
      unfold elaws_titles
      rw [if_pos ht]
      simp
    · intro hdec
      rw [hshort]
      unfold elaws_titles
      rw [if_pos ht]
      simp only [Bool.false_eq_true, if_false]
      rw [statuteShortMatch_some_iff.mpr hdec]
    · intro hnone
      rw [hshort]
      unfold elaws_titles
      rw [if_pos ht]
      simp only [Bool.false_eq_true, if_false]
      rw [statuteShortMatch_none_iff.mpr hnone]

/-- Counterexample for C3 as stated: the full-title rule fails on a
page title that begins with `-` (the regex `^([^-]+)` does not match,
so the whole title is kept untrimmed instead of the empty
portion-before-dash), and on an empty page title (the default
`Legislation` is used). -/
theorem elaws_title_counterexample :
    (fetch_elaws_citation "https://www.ontario.ca/laws/statute/07e07"
        (Except.ok ⟨"-General", fun _ => false, fun _ => []⟩)).full_title = some "-General"
    ∧ pyStrip (beforeFirstDash "-General") = ""
    ∧ ((some "-General" : Option String) ≠ some (pyStrip (beforeFirstDash "-General")))
    ∧ (fetch_elaws_citation "https://www.ontario.ca/laws/statute/07e07"
        (Except.ok ⟨"", fun _ => false, fun _ => []⟩)).full_title = some "Legislation" := by
  refine ⟨by rfl, by rfl, by decide, by rfl⟩

/-- Witness for the amended C3: the regulation branch applied at the
concrete page title `O. Reg. 221/08 - General`, with the explicit
leading-match decomposition of `O. Reg. 221/08`. -/
theorem elaws_title_claim_witness :
    (fetch_elaws_citation "https://www.ontario.ca/laws/regulation/080221"
        (Except.ok ⟨"O. Reg. 221/08 - General", fun _ => false, fun _ => []⟩)).short_title
      = some (String.mk ['O', '.', ' ', 'R', 'e', 'g', '.', ' ', '2', '2', '1', '/', '0', '8']) :=
  ((elaws_title_claim.2.1 "https://www.ontario.ca/laws/regulation/080221"
      ⟨"O. Reg. 221/08 - General", fun _ => false, fun _ => []⟩
      ['O', '.', ' ', 'R', 'e', 'g', '.', ' ', '2', '2', '1', '/', '0', '8']
      (by rfl) (by decide)).2.1)
    ⟨[' '], [' '], ['2', '2', '1'], ['0', '8'], [], by decide, by decide, by decide,
      by decide, by decide, by decide, by decide, by decide,
      fun x hx => Option.noConfusion hx⟩
